import Mathlib

/-!
Verification of the mongo-utils repository: a shallow embedding of the two
scripts and of the aggregation-pipeline stage semantics they rely on.

The repository's own code (under `src/`) only *declares* the two facet
pipelines and the insertion loop; the execution semantics of the pipeline
stages (`$match`, `$group`, `$bucketAuto`, `$sort`, `$project`) live in the
external document database.  Those stage semantics are modelled here from
the specification's stage contracts (spec §4.1), while the concrete pipeline
configurations and the insertion loop are translated directly from the
source files.
-/

namespace MongoUtils

/-- A source record of the `mot.testresults` collection, with the fields the
facet pipelines reference (`Make`, `Model`, `FuelType`). -/
structure SrcRecord where
  Make : String
  Model : String
  FuelType : String
deriving DecidableEq, Repr

/-- Modelled from the spec: the `Match` stage "filters input records by a
boolean predicate"; output is the subset of input records, same shape. -/
def matchStage {α : Type} (p : α → Bool) (R : List α) : List α :=
  R.filter p

/-- Modelled from the spec: the `Project` stage "reshapes a record by
including/excluding/renaming fields; never changes record count or order". -/
def projectStage {α β : Type} (f : α → β) (R : List α) : List β :=
  R.map f

/-- Modelled from the spec: the `Sort` stage "orders records by one or more
fields ... stable by upstream order when all sort keys are equal".
Insertion sort of this shape is stable. -/
def sortStage {α : Type} (r : α → α → Prop) [DecidableRel r] (R : List α) : List α :=
  List.insertionSort r R

/-- Modelled from the spec: a `Group` stage with no accumulators (the first
`$group` of the bucketed facet) emits one record per distinct key value. -/
def groupDistinct {α κ : Type} [DecidableEq κ] (key : α → κ) (R : List α) : List κ :=
  (R.map key).dedup

/-- Modelled from the spec: a `Group` stage keyed by `key` with a `$sum: 1`
accumulator: "partitions input into buckets keyed by one or more field
values; for each bucket emits one output record containing the key and one
or more computed aggregates (count, sum)". -/
def groupCount {α κ : Type} [DecidableEq κ] (key : α → κ) (R : List α) : List (κ × ℕ) :=
  (R.map key).dedup.map fun k => (k, (R.filter fun r => key r = k).length)

/-! ### The `$bucketAuto` stage with granularity `'1-2-5'`

Modelled from the spec: "partitions its value range into approximately N
buckets following a declared granularity policy (e.g., preferred numbers
sequence 1-2-5) so that bucket boundaries are 'nice' numbers"; each bucket
record carries "{min boundary (inclusive), max boundary (exclusive), count
of items in bucket}", and adjacent buckets share an edge.  The preferred
series is {1, 2, 5} × 10^z. -/

/-- The smallest value of the 1-2-5 preferred series strictly greater than
`v` (for the natural values ≥ 1 produced by a counting group stage). -/
def granRoundUp (v : ℕ) : ℕ :=
  if v < 1 then 1
  else if v < 2 then 2
  else if v < 5 then 5
  else if v < 10 then 10
  else 10 * granRoundUp (v / 10)
termination_by v
decreasing_by omega

/-- The largest value of the 1-2-5 preferred series strictly below `v`
(used for the lower boundary of the first bucket; for `v = 1` this is
`0.5`, hence the rational codomain). -/
def granRoundDown (v : ℕ) : ℚ :=
  if v ≤ 1 then 1/2
  else if v ≤ 2 then 1
  else if v ≤ 5 then 2
  else if v ≤ 10 then 5
  else 10 * granRoundDown ((v + 9) / 10)
termination_by v
decreasing_by omega

/-- One `$bucketAuto` output record: inclusive min boundary, exclusive max
boundary, and the count of items that fell into the bucket. -/
structure Bucket where
  min : ℚ
  max : ℚ
  count : ℕ
deriving DecidableEq, Repr

/-- Chop a sorted value list into consecutive bucket contents: each chunk
takes `max 1 sz` values, rounds the last one up to the preferred series to
obtain the bucket's exclusive upper boundary, and absorbs the following
values that still fall below that boundary (so equal values never straddle
a boundary).  Returns each chunk paired with its upper boundary. -/
def bucketChunks (sz : ℕ) (vals : List ℕ) : List (List ℕ × ℕ) :=
  if h : vals = [] then []
  else
    let k := max 1 sz
    let base := vals.take k
    let maxB := granRoundUp (base.getLastD 0)
    let rest := vals.drop k
    ((base ++ rest.takeWhile fun v => v < maxB), maxB) ::
      bucketChunks sz (rest.dropWhile fun v => v < maxB)
termination_by vals.length
decreasing_by
  have h1 : (vals.drop (max 1 sz)).length < vals.length := by
    rw [List.length_drop]
    have : vals.length ≠ 0 := fun hn => h (List.length_eq_zero.mp hn)
    omega
  exact lt_of_le_of_lt ((List.dropWhile_sublist _).length_le) h1

/-- Assign boundaries to the chunks: the first bucket starts at `lo`, and
each later bucket starts at the previous bucket's upper boundary (adjacent
buckets share an edge). -/
def buildBuckets (lo : ℚ) : List (List ℕ × ℕ) → List Bucket
  | [] => []
  | (c, hi) :: cs => ⟨lo, (hi : ℚ), c.length⟩ :: buildBuckets (hi : ℚ) cs

/-- Modelled from the spec: the `$bucketAuto` stage with `numBuckets`
buckets and granularity `'1-2-5'`.  Sorts the values, chops them into
approximately `numBuckets` chunks, and emits one record per chunk with
series-rounded boundaries; an empty input yields no buckets ("fewer
distinct values than requested buckets yields fewer output buckets — never
an error"). -/
def bucketAuto (numBuckets : ℕ) (vals : List ℕ) : List Bucket :=
  let sorted := List.insertionSort (fun a b => a ≤ b) vals
  if sorted = [] then []
  else
    buildBuckets (granRoundDown (sorted.headD 0))
      (bucketChunks ((vals.length + numBuckets - 1) / numBuckets) sorted)

/-- Well-formedness of a chunk list relative to a lower boundary `lo`:
every chunk is nonempty, its values lie in `[lo, hi)` for its own upper
boundary `hi`, `lo < hi`, and the next chunk's range starts at `hi`. -/
def ChunksOK (lo : ℚ) : List (List ℕ × ℕ) → Prop
  | [] => True
  | (c, hi) :: cs =>
      c ≠ [] ∧ (∀ x ∈ c, lo ≤ (x : ℚ) ∧ (x : ℚ) < (hi : ℚ)) ∧
        lo < (hi : ℚ) ∧ ChunksOK (hi : ℚ) cs

/-! ### The two facet pipelines (translated from
`src/MOTVehicleData/mdb-mot-agg-cars-facets.py`) -/

/-- Output record of the `CategorisedCarsByFuelType` facet after its final
`$project`: `{FuelType, CarAmount}`. -/
structure FuelTypeCount where
  FuelType : String
  CarAmount : ℕ
deriving DecidableEq, Repr

/-- The comparison declared by `{'$sort': SON([('CarAmount', -1)])}`:
descending on the single sort key `CarAmount`. -/
def carAmountDesc (a b : String × ℕ) : Prop := b.2 ≤ a.2

instance : DecidableRel carAmountDesc := fun a b => by
  unfold carAmountDesc; infer_instance

instance : IsTotal (String × ℕ) carAmountDesc :=
  ⟨fun a b => le_total b.2 a.2⟩

instance : IsTrans (String × ℕ) carAmountDesc :=
  ⟨fun _ _ _ hab hbc => le_trans hbc hab⟩

/-- The `CategorisedCarsByFuelType` facet pipeline:
`$group` by `$FuelType` with `CarAmount: {$sum: 1}`, then
`$sort` by `CarAmount` descending, then
`$project` to `{FuelType, CarAmount}`. -/
def get_pipeline_categorised_cars_by_fuel_type (R : List SrcRecord) : List FuelTypeCount :=
  projectStage (fun g => { FuelType := g.1, CarAmount := g.2 })
    (sortStage carAmountDesc
      (groupCount (fun r => r.FuelType) R))

/-- Output record of the `BucketedCarMakesByAmountOfUniqueModels` facet after
its final `$project`: `{MinUniqueModels, MaxUniqueModels, CarMakesInBucket}`. -/
structure BucketOut where
  MinUniqueModels : ℚ
  MaxUniqueModels : ℚ
  CarMakesInBucket : ℕ
deriving DecidableEq, Repr

/-- The predicate of the facet's `$match` stage:
`{$and: [{Make: {$ne: 'UNCLASSIFIED'}}, {Model: {$ne: 'UNCLASSIFIED'}}]}`. -/
def notUnclassified (r : SrcRecord) : Bool :=
  decide (r.Make ≠ "UNCLASSIFIED" ∧ r.Model ≠ "UNCLASSIFIED")

/-- The `BucketedCarMakesByAmountOfUniqueModels` facet pipeline:
`$match` (no UNCLASSIFIED Make or Model), then
`$group` by `{Make, Model}` (distinct make/model pairs), then
`$group` by `Make` with `ModelTypes: {$sum: 1}`, then
`$bucketAuto` on `$ModelTypes` with 20 buckets and granularity `'1-2-5'`, then
`$project` to `{MinUniqueModels, MaxUniqueModels, CarMakesInBucket}`. -/
def get_pipeline_bucketed_car_makes_by_amount_of_unique_models
    (R : List SrcRecord) : List BucketOut :=
  projectStage
    (fun b => { MinUniqueModels := b.min, MaxUniqueModels := b.max,
                CarMakesInBucket := b.count })
    (bucketAuto 20
      ((groupCount Prod.fst
        (groupDistinct (fun r => (r.Make, r.Model))
          (matchStage notUnclassified R))).map Prod.snd))

/-- The Report: one entry per facet of the `$facet` stage in
`mot_vehicle_aggregate`. -/
structure Report where
  CategorisedCarsByFuelType : List FuelTypeCount
  BucketedCarMakesByAmountOfUniqueModels : List BucketOut
deriving DecidableEq, Repr

/-- The aggregation runner `mot_vehicle_aggregate`: runs the single
`$facet` pipeline, collecting each facet's output under its name. -/
def mot_vehicle_aggregate (source : List SrcRecord) : Report :=
  { CategorisedCarsByFuelType := get_pipeline_categorised_cars_by_fuel_type source,
    BucketedCarMakesByAmountOfUniqueModels :=
      get_pipeline_bucketed_car_makes_by_amount_of_unique_models source }

/-! ### The continuous-insertion script
(translated from `src/SimpleRandomInserts/insertdata.py`) -/

/-- A BSON-ish field value of the inserted records: a timestamp
(`datetime.datetime.utcnow()`) or an integer. -/
inductive BsonValue where
  | date (t : ℕ)
  | int (n : ℕ)
deriving DecidableEq, Repr

/-- Python's `random.randint(lo, hi)`: a uniformly chosen integer with
`lo <= result <= hi` (both endpoints inclusive), modelled on an externally
supplied seed value. -/
def randint (lo hi seed : ℕ) : ℕ := lo + seed % (hi - lo + 1)

/-- The document passed to `db.records.insert`: exactly the three fields
`'date '` (note the trailing space in the source's key), `'count'` and
`'value'`, in that order. -/
def insertRecord (now cnt seed : ℕ) : List (String × BsonValue) :=
  [("date ", BsonValue.date now), ("count", BsonValue.int cnt),
   ("value", BsonValue.int (randint 0 9999 seed))]

/-- The state of the insertion script: the `count` variable and the
contents of the `records` collection. -/
structure InsertState where
  count : ℕ
  records : List (List (String × BsonValue))
deriving DecidableEq, Repr

/-- The loop guard of the script: `while True` — true in every state. -/
def insertLoopCond (_ : InsertState) : Bool := true

/-- One iteration of the loop body: insert one record built from the
current time, the current `count` and a fresh random value, then increment
`count`.  `iter` indexes the external time/randomness streams. -/
def insertStep (time rnd : ℕ → ℕ) (iter : ℕ) (s : InsertState) : InsertState :=
  { count := s.count + 1,
    records := s.records ++ [insertRecord (time iter) s.count (rnd iter)] }

/-- The script after `n` completed loop iterations, starting from
`count = 1` and an empty collection; `time` and `rnd` are the external
clock and randomness streams. -/
def insertRun (time rnd : ℕ → ℕ) : ℕ → InsertState
  | 0 => { count := 1, records := [] }
  | n + 1 => insertStep time rnd n (insertRun time rnd n)

/-! ## Theorems -/

/-- After `n` iterations the collection holds exactly the records of
iterations `0..n-1`, the `i`-th built from `count = i + 1`. -/
theorem insertRun_records (time rnd : ℕ → ℕ) (n : ℕ) :
    (insertRun time rnd n).records =
      (List.range n).map (fun i => insertRecord (time i) (i + 1) (rnd i)) ∧
    (insertRun time rnd n).count = n + 1 := by
  induction n with
  | zero => simp [insertRun]
  | succ n ih => simp [insertRun, insertStep, List.range_succ, ih.1, ih.2]

/-- C1: on the input `[{FuelType:'PE'},{FuelType:'PE'},{FuelType:'DI'}]`
the `CategorisedCarsByFuelType` facet produces exactly
`[{FuelType:'PE', CarAmount:2}, {FuelType:'DI', CarAmount:1}]`. -/
theorem categorised_cars_by_fuel_type_scenario :
    get_pipeline_categorised_cars_by_fuel_type
        [⟨"", "", "PE"⟩, ⟨"", "", "PE"⟩, ⟨"", "", "DI"⟩] =
      [⟨"PE", 2⟩, ⟨"DI", 1⟩] := by
  decide

/-- C4: the `Match` stage yields a subsequence of its input (subset in the
input's relative order), every output record satisfies the predicate,
every input record satisfying the predicate is kept, and the output length
equals the number of satisfying input records (so none is dropped). -/
theorem match_stage_subsequence {α : Type} (p : α → Bool) (R : List α) :
    (matchStage p R).Sublist R ∧
    (∀ r ∈ matchStage p R, p r = true) ∧
    (∀ r ∈ R, p r = true → r ∈ matchStage p R) ∧
    (matchStage p R).length = R.countP p := by
  refine ⟨R.filter_sublist, fun r hr => List.of_mem_filter hr,
    fun r hr hp => List.mem_filter_of_mem hr hp, ?_⟩
  rw [matchStage, ← List.countP_eq_length_filter]

/-- C6: the `Project` stage outputs exactly as many records as it is given,
and the record at each position is the reshape of the input record at that
same position (no adding, dropping or reordering of records). -/
theorem project_stage_cardinality {α β : Type} (f : α → β) (R : List α) (i : ℕ) :
    (projectStage f R).length = R.length ∧
    (projectStage f R)[i]? = R[i]?.map f := by
  exact ⟨R.length_map f, List.getElem?_map f R i⟩

/-- C8: an empty record source is not an error: the run completes and the
Report maps both facet names to the empty list. -/
theorem empty_source_yields_empty_report :
    mot_vehicle_aggregate [] =
      { CategorisedCarsByFuelType := [],
        BucketedCarMakesByAmountOfUniqueModels := [] } := by
  decide

/-- C9: the insertion loop never terminates on its own: after any `n`
completed iterations the `while True` guard still holds, so an `(n+1)`-th
iteration runs, and that iteration appends exactly one record. -/
theorem insert_loop_never_terminates (time rnd : ℕ → ℕ) (n : ℕ) :
    insertLoopCond (insertRun time rnd n) = true ∧
    (insertRun time rnd (n + 1)).records.length =
      (insertRun time rnd n).records.length + 1 := by
  refine ⟨rfl, ?_⟩
  simp [insertRun, insertStep]

/-- C10: the `n`-th record inserted (counting from 1) has exactly the three
fields `'date '` (with trailing space), `'count'` and `'value'`, its
`count` field equals `n`, and its `value` field is an integer between 0 and
9999 inclusive. -/
theorem insert_record_shape (time rnd : ℕ → ℕ) (N n : ℕ)
    (h1 : 1 ≤ n) (h2 : n ≤ (insertRun time rnd N).records.length) :
    ∃ v : ℕ, v ≤ 9999 ∧
      (insertRun time rnd N).records[n - 1]? =
        some [("date ", BsonValue.date (time (n - 1))),
              ("count", BsonValue.int n),
              ("value", BsonValue.int v)] := by
  refine ⟨randint 0 9999 (rnd (n - 1)), ?_, ?_⟩
  · have := Nat.mod_lt (rnd (n - 1)) (show 0 < 10000 by norm_num)
    unfold randint
    omega
  · rw [(insertRun_records time rnd N).1] at h2 ⊢
    rw [List.length_map, List.length_range] at h2
    have hlt : n - 1 < N := by omega
    rw [List.getElem?_map, List.getElem?_range hlt]
    have hn : n - 1 + 1 = n := by omega
    simp [insertRecord, hn]

/-- The key fields of a `groupCount` output are the distinct keys of the
input, in deduplicated form. -/
theorem groupCount_map_fst {α κ : Type} [DecidableEq κ] (key : α → κ) (R : List α) :
    (groupCount key R).map Prod.fst = (R.map key).dedup := by
  simp only [groupCount, List.map_map]
  exact List.map_id _

/-- C2: the `Group` stage is order-independent: a permutation of the input
yields a permutation (hence the same unordered set) of the output group
records; the output keys are pairwise distinct, and a key appears in the
output exactly when some input record carries it — so every distinct key
value produces exactly one output record. -/
theorem group_stage_order_independent {α κ : Type} [DecidableEq κ] (key : α → κ)
    (R R' : List α) (k : κ) (h : R.Perm R') :
    (groupCount key R).Perm (groupCount key R') ∧
    ((groupCount key R).map Prod.fst).Nodup ∧
    (k ∈ (groupCount key R).map Prod.fst ↔ k ∈ R.map key) := by
  refine ⟨?_, ?_, ?_⟩
  · have hkeys : ((R.map key).dedup).Perm ((R'.map key).dedup) := (h.map key).dedup
    have hf : (fun k => (k, (R.filter fun r => key r = k).length)) =
        (fun k => (k, (R'.filter fun r => key r = k).length)) := by
      funext k
      rw [(h.filter fun r => decide (key r = k)).length_eq]
    unfold groupCount
    rw [hf]
    exact hkeys.map _
  · rw [groupCount_map_fst]
    exact (R.map key).nodup_dedup
  · rw [groupCount_map_fst]
    exact List.mem_dedup

/-- Witness for C2: the two-record input permuted by a swap. -/
theorem group_stage_order_independent_witness :
    (groupCount (fun r => r.FuelType) [SrcRecord.mk "A" "X" "PE", SrcRecord.mk "B" "Y" "DI"]).Perm
      (groupCount (fun r => r.FuelType) [SrcRecord.mk "B" "Y" "DI", SrcRecord.mk "A" "X" "PE"]) ∧
    ((groupCount (fun r => r.FuelType)
        [SrcRecord.mk "A" "X" "PE", SrcRecord.mk "B" "Y" "DI"]).map Prod.fst).Nodup ∧
    ("PE" ∈ (groupCount (fun r => r.FuelType)
        [SrcRecord.mk "A" "X" "PE", SrcRecord.mk "B" "Y" "DI"]).map Prod.fst ↔
      "PE" ∈ [SrcRecord.mk "A" "X" "PE", SrcRecord.mk "B" "Y" "DI"].map
        (fun r => r.FuelType)) :=
  group_stage_order_independent (fun r => r.FuelType)
    [SrcRecord.mk "A" "X" "PE", SrcRecord.mk "B" "Y" "DI"]
    [SrcRecord.mk "B" "Y" "DI", SrcRecord.mk "A" "X" "PE"] "PE"
    (List.Perm.swap _ _ _)

/-- C5: a record whose `Make` or `Model` is `'UNCLASSIFIED'` is removed by
the `$match` stage before any grouping, so the whole facet's output is the
same as if the record were absent — it contributes to no group and to no
bucket count. -/
theorem unclassified_contributes_nothing (A B : List SrcRecord) (r : SrcRecord)
    (h : r.Make = "UNCLASSIFIED" ∨ r.Model = "UNCLASSIFIED") :
    matchStage notUnclassified (A ++ r :: B) = matchStage notUnclassified (A ++ B) ∧
    get_pipeline_bucketed_car_makes_by_amount_of_unique_models (A ++ r :: B) =
      get_pipeline_bucketed_car_makes_by_amount_of_unique_models (A ++ B) := by
  have hp : notUnclassified r = false := by
    simp only [notUnclassified, decide_eq_false_iff_not, not_and_or, not_not]
    tauto
  have hm : matchStage notUnclassified (A ++ r :: B) =
      matchStage notUnclassified (A ++ B) := by
    simp [matchStage, List.filter_append, List.filter_cons, hp]
  refine ⟨hm, ?_⟩
  unfold get_pipeline_bucketed_car_makes_by_amount_of_unique_models
  rw [hm]

/-- Witness for C5: an `UNCLASSIFIED` make inserted between two records. -/
theorem unclassified_contributes_nothing_witness :
    matchStage notUnclassified
        ([SrcRecord.mk "A" "X" ""] ++ SrcRecord.mk "UNCLASSIFIED" "X" "" ::
          [SrcRecord.mk "B" "Y" ""]) =
      matchStage notUnclassified ([SrcRecord.mk "A" "X" ""] ++ [SrcRecord.mk "B" "Y" ""]) ∧
    get_pipeline_bucketed_car_makes_by_amount_of_unique_models
        ([SrcRecord.mk "A" "X" ""] ++ SrcRecord.mk "UNCLASSIFIED" "X" "" ::
          [SrcRecord.mk "B" "Y" ""]) =
      get_pipeline_bucketed_car_makes_by_amount_of_unique_models
        ([SrcRecord.mk "A" "X" ""] ++ [SrcRecord.mk "B" "Y" ""]) :=
  unclassified_contributes_nothing [SrcRecord.mk "A" "X" ""] [SrcRecord.mk "B" "Y" ""]
    (SrcRecord.mk "UNCLASSIFIED" "X" "") (Or.inl rfl)

/-- `granRoundUp` always rounds strictly up: the chosen series value is
greater than the value it rounds. -/
theorem granRoundUp_gt (v : ℕ) : v < granRoundUp v := by
  induction v using Nat.strong_induction_on with
  | _ v ih =>
    rw [granRoundUp]
    split_ifs with h1 h2 h3 h4
    · omega
    · omega
    · omega
    · omega
    · have h10 : v / 10 < v := by omega
      have := ih (v / 10) h10
      omega

/-- `granRoundDown` rounds strictly down on values ≥ 1, and for values ≥ 2
the result is at most `v - 1` (the series value below an integer ≥ 2 is an
integer below it). -/
theorem granRoundDown_bounds (v : ℕ) : 1 ≤ v →
    granRoundDown v < (v : ℚ) ∧ (2 ≤ v → granRoundDown v ≤ (v : ℚ) - 1) := by
  induction v using Nat.strong_induction_on with
  | _ v ih =>
    intro h1
    rw [granRoundDown]
    split_ifs with h2 h3 h4 h5
    · have hv : v = 1 := by omega
      subst hv
      norm_num
    · have hv : v = 2 := by omega
      subst hv
      norm_num
    · have hv : (3 : ℚ) ≤ (v : ℚ) := by exact_mod_cast (by omega : 3 ≤ v)
      exact ⟨by linarith, fun _ => by linarith⟩
    · have hv : (6 : ℚ) ≤ (v : ℚ) := by exact_mod_cast (by omega : 6 ≤ v)
      exact ⟨by linarith, fun _ => by linarith⟩
    · have hlt : (v + 9) / 10 < v := by omega
      have hc1 : 1 ≤ (v + 9) / 10 := by omega
      have hc2 : 2 ≤ (v + 9) / 10 := by omega
      have hd := (ih _ hlt hc1).2 hc2
      have hcast : (10 : ℚ) * (((v + 9) / 10 : ℕ) : ℚ) ≤ (v : ℚ) + 9 := by
        exact_mod_cast (by omega : 10 * ((v + 9) / 10) ≤ v + 9)
      exact ⟨by linarith, fun _ => by linarith⟩

/-- Unfolding equation: no values, no chunks. -/
theorem bucketChunks_nil (sz : ℕ) : bucketChunks sz [] = [] := by
  rw [bucketChunks]
  simp

/-- Unfolding equation for a nonempty value list. -/
theorem bucketChunks_cons (sz : ℕ) (vals : List ℕ) (h : vals ≠ []) :
    bucketChunks sz vals =
      ((vals.take (max 1 sz) ++
          (vals.drop (max 1 sz)).takeWhile fun v =>
            v < granRoundUp ((vals.take (max 1 sz)).getLastD 0),
        granRoundUp ((vals.take (max 1 sz)).getLastD 0)) ::
      bucketChunks sz ((vals.drop (max 1 sz)).dropWhile fun v =>
        v < granRoundUp ((vals.take (max 1 sz)).getLastD 0))) := by
  rw [bucketChunks]
  simp [h]

/-- The last element (with default) of a nonempty list is one of its
elements. -/
theorem getLastD_mem_of_ne_nil (l : List ℕ) (d : ℕ) (h : l ≠ []) : l.getLastD d ∈ l := by
  cases l with
  | nil => exact absurd rfl h
  | cons b bs =>
    rw [List.getLastD_cons]
    exact List.getLastD_mem_cons bs b

/-- In a sorted list every element is at most the last element. -/
theorem mem_le_getLastD (l : List ℕ) (d : ℕ) (hs : List.Sorted (· ≤ ·) l) :
    ∀ x ∈ l, x ≤ l.getLastD d := by
  induction l generalizing d with
  | nil => intro x hx; cases hx
  | cons a l ih =>
    intro x hx
    rw [List.getLastD_cons]
    rcases List.mem_cons.mp hx with rfl | hxl
    · rcases List.mem_cons.mp (List.getLastD_mem_cons l x) with hga | hgl
      · exact le_of_eq hga.symm
      · exact (List.sorted_cons.mp hs).1 _ hgl
    · exact ih a (List.sorted_cons.mp hs).2 x hxl

/-- In a sorted list, everything that survives `dropWhile (· < m)` is
`≥ m`. -/
theorem sorted_dropWhile_lt_ge (m : ℕ) (l : List ℕ) (hs : List.Sorted (· ≤ ·) l) :
    ∀ x ∈ l.dropWhile (fun v => v < m), m ≤ x := by
  induction l with
  | nil => intro x hx; simp [List.dropWhile] at hx
  | cons a l ih =>
    rw [List.dropWhile_cons]
    split_ifs with ha
    · exact ih (List.sorted_cons.mp hs).2
    · intro x hx
      rcases List.mem_cons.mp hx with rfl | hxl
      · simp at ha; omega
      · have := (List.sorted_cons.mp hs).1 x hxl
        simp at ha
        omega

/-- The chunks produced from a sorted value list bounded below by `lo` are
well formed (nonempty, correctly bounded, with increasing shared
boundaries), and flattening them gives back the value list. -/
theorem bucketChunks_ok (sz : ℕ) (n : ℕ) :
    ∀ (vals : List ℕ), vals.length ≤ n → List.Sorted (· ≤ ·) vals →
      ∀ lo : ℚ, (∀ x ∈ vals, lo ≤ (x : ℚ)) →
        ChunksOK lo (bucketChunks sz vals) ∧
        ((bucketChunks sz vals).map Prod.fst).flatten = vals := by
  induction n with
  | zero =>
    intro vals hlen _ lo _
    have hv : vals = [] := List.length_eq_zero.mp (by omega)
    subst hv
    rw [bucketChunks_nil]
    exact ⟨trivial, rfl⟩
  | succ n ih =>
    intro vals hlen hs lo hlo
    by_cases hnil : vals = []
    · subst hnil
      rw [bucketChunks_nil]
      exact ⟨trivial, rfl⟩
    · rw [bucketChunks_cons sz vals hnil]
      have hlen0 : vals.length ≠ 0 := fun h0 => hnil (List.length_eq_zero.mp h0)
      have hbase_ne : vals.take (max 1 sz) ≠ [] := by
        intro hb
        have := congrArg List.length hb
        rw [List.length_take] at this
        simp only [List.length_nil] at this
        omega
      set base := vals.take (max 1 sz) with hbase_def
      set lastB := base.getLastD 0 with hlast_def
      set maxB := granRoundUp lastB with hmaxB_def
      set rest := vals.drop (max 1 sz) with hrest_def
      set ext := rest.takeWhile (fun v => v < maxB) with hext_def
      set rest' := rest.dropWhile (fun v => v < maxB) with hrest'_def
      have hs_base : List.Sorted (· ≤ ·) base := hs.sublist (List.take_sublist _ _)
      have hs_rest : List.Sorted (· ≤ ·) rest := hs.sublist (List.drop_sublist _ _)
      have hs_rest' : List.Sorted (· ≤ ·) rest' := hs_rest.sublist (List.dropWhile_sublist _)
      have hbase_mem : ∀ x ∈ base, x ∈ vals := fun x hx => (List.take_sublist _ _).mem hx
      have hext_mem : ∀ x ∈ ext, x ∈ vals := fun x hx =>
        (List.drop_sublist _ _).mem ((List.takeWhile_sublist _).mem hx)
      have hlastB_mem_base : lastB ∈ base := getLastD_mem_of_ne_nil base 0 hbase_ne
      have hbase_le_last : ∀ x ∈ base, x ≤ lastB := mem_le_getLastD base 0 hs_base
      have hlast_lt_maxB : lastB < maxB := by
        rw [hmaxB_def]
        exact granRoundUp_gt lastB
      have hchunk_ub : ∀ x ∈ base ++ ext, x < maxB := by
        intro x hx
        rcases List.mem_append.mp hx with hxb | hxe
        · exact lt_of_le_of_lt (hbase_le_last x hxb) hlast_lt_maxB
        · have := List.mem_takeWhile_imp hxe
          simpa using this
      have hchunk_lb : ∀ x ∈ base ++ ext, lo ≤ (x : ℚ) := by
        intro x hx
        rcases List.mem_append.mp hx with hxb | hxe
        · exact hlo x (hbase_mem x hxb)
        · exact hlo x (hext_mem x hxe)
      have hlo_lt_maxB : lo < (maxB : ℚ) := by
        have hx1 : lo ≤ (lastB : ℚ) := hlo lastB (hbase_mem _ hlastB_mem_base)
        have hx2 : (lastB : ℚ) < (maxB : ℚ) := by exact_mod_cast hlast_lt_maxB
        linarith
      have hrest'_len : rest'.length ≤ n := by
        have hx1 : rest'.length ≤ rest.length := (List.dropWhile_sublist _).length_le
        have hx2 : rest.length = vals.length - max 1 sz := List.length_drop _ _
        have hx3 : 1 ≤ max 1 sz := le_max_left 1 sz
        omega
      have hrest'_lb : ∀ x ∈ rest', (maxB : ℚ) ≤ (x : ℚ) := fun x hx =>
        Nat.cast_le.mpr (sorted_dropWhile_lt_ge maxB rest hs_rest x hx)
      obtain ⟨hok, hflat⟩ := ih rest' hrest'_len hs_rest' (maxB : ℚ) hrest'_lb
      refine ⟨⟨?_, ?_, hlo_lt_maxB, hok⟩, ?_⟩
      · intro hc
        exact hbase_ne (List.append_eq_nil.mp hc).1
      · intro x hx
        refine ⟨hchunk_lb x hx, ?_⟩
        exact_mod_cast hchunk_ub x hx
      · simp only [List.map_cons, List.flatten_cons, hflat]
        rw [List.append_assoc, List.takeWhile_append_dropWhile, List.take_append_drop]

/-- Adjacent buckets always share an edge: each bucket's max is the next
bucket's min, by construction. -/
theorem buildBuckets_chain (cs : List (List ℕ × ℕ)) :
    ∀ lo : ℚ, List.Chain' (fun x y => x.max = y.min) (buildBuckets lo cs) := by
  induction cs with
  | nil => intro lo; simp [buildBuckets]
  | cons c cs ih =>
    intro lo
    obtain ⟨c, hi⟩ := c
    rw [buildBuckets]
    cases cs with
    | nil => simp [buildBuckets]
    | cons c' cs' =>
      obtain ⟨c', hi'⟩ := c'
      rw [buildBuckets]
      refine List.Chain'.cons rfl ?_
      have := ih (hi : ℚ)
      rwa [buildBuckets] at this

/-- Every bucket built from well-formed chunks has `min < max`. -/
theorem buildBuckets_min_lt_max (cs : List (List ℕ × ℕ)) :
    ∀ lo : ℚ, ChunksOK lo cs → ∀ b ∈ buildBuckets lo cs, b.min < b.max := by
  induction cs with
  | nil => intro lo _ b hb; simp [buildBuckets] at hb
  | cons c cs ih =>
    intro lo hok b hb
    obtain ⟨c, hi⟩ := c
    obtain ⟨-, -, hlt, hok'⟩ := hok
    rw [buildBuckets] at hb
    rcases List.mem_cons.mp hb with rfl | hb'
    · exact hlt
    · exact ih (hi : ℚ) hok' b hb'

/-- Every bucket built from well-formed chunks starts at or above the
running lower boundary. -/
theorem buildBuckets_min_ge (cs : List (List ℕ × ℕ)) :
    ∀ lo : ℚ, ChunksOK lo cs → ∀ b ∈ buildBuckets lo cs, lo ≤ b.min := by
  induction cs with
  | nil => intro lo _ b hb; simp [buildBuckets] at hb
  | cons c cs ih =>
    intro lo hok b hb
    obtain ⟨c, hi⟩ := c
    obtain ⟨-, -, hlt, hok'⟩ := hok
    rw [buildBuckets] at hb
    rcases List.mem_cons.mp hb with rfl | hb'
    · exact le_refl lo
    · exact le_trans (le_of_lt hlt) (ih (hi : ℚ) hok' b hb')

/-- The half-open bucket ranges are mutually exclusive: any earlier
bucket's max is at most any later bucket's min. -/
theorem buildBuckets_pairwise (cs : List (List ℕ × ℕ)) :
    ∀ lo : ℚ, ChunksOK lo cs →
      List.Pairwise (fun x y => x.max ≤ y.min) (buildBuckets lo cs) := by
  induction cs with
  | nil => intro lo _; simp [buildBuckets]
  | cons c cs ih =>
    intro lo hok
    obtain ⟨c, hi⟩ := c
    obtain ⟨-, -, hlt, hok'⟩ := hok
    rw [buildBuckets]
    refine List.Pairwise.cons ?_ (ih (hi : ℚ) hok')
    intro b hb
    exact buildBuckets_min_ge cs (hi : ℚ) hok' b hb

/-- Bucket counts are the chunk lengths. -/
theorem buildBuckets_counts (cs : List (List ℕ × ℕ)) :
    ∀ lo : ℚ, ((buildBuckets lo cs).map Bucket.count).sum =
      ((cs.map Prod.fst).map List.length).sum := by
  induction cs with
  | nil => intro lo; simp [buildBuckets]
  | cons c cs ih =>
    intro lo
    obtain ⟨c, hi⟩ := c
    rw [buildBuckets]
    simp only [List.map_cons, List.sum_cons, ih (hi : ℚ)]

/-- Every chunk value is covered by the half-open range of some bucket. -/
theorem buildBuckets_coverage (cs : List (List ℕ × ℕ)) :
    ∀ lo : ℚ, ChunksOK lo cs → ∀ x : ℕ, x ∈ (cs.map Prod.fst).flatten →
      ∃ b ∈ buildBuckets lo cs, b.min ≤ (x : ℚ) ∧ (x : ℚ) < b.max := by
  induction cs with
  | nil => intro lo _ x hx; simp at hx
  | cons c cs ih =>
    intro lo hok x hx
    obtain ⟨c, hi⟩ := c
    obtain ⟨-, hbnd, hlt, hok'⟩ := hok
    simp only [List.map_cons, List.flatten_cons, List.mem_append] at hx
    rw [buildBuckets]
    rcases hx with hxc | hxcs
    · exact ⟨⟨lo, (hi : ℚ), c.length⟩, List.mem_cons_self _ _, hbnd x hxc⟩
    · obtain ⟨b, hb, hbx⟩ := ih (hi : ℚ) hok' x hxcs
      exact ⟨b, List.mem_cons_of_mem _ hb, hbx⟩

/-- C3: for every finite list of (positive) numeric values, the
`$bucketAuto` stage with 20 buckets and granularity `'1-2-5'` produces
buckets whose boundaries are non-decreasing (adjacent buckets share an
edge and each bucket has `min < max`), whose half-open ranges are mutually
exclusive, which together cover every observed value, and whose counts sum
to the input record count. -/
theorem bucket_auto_boundaries_partition (vals : List ℕ) (h1 : ∀ v ∈ vals, 1 ≤ v) :
    List.Chain' (fun x y => x.max = y.min) (bucketAuto 20 vals) ∧
    (∀ b ∈ bucketAuto 20 vals, b.min < b.max) ∧
    List.Pairwise (fun x y => x.max ≤ y.min) (bucketAuto 20 vals) ∧
    (∀ v ∈ vals, ∃ b ∈ bucketAuto 20 vals, b.min ≤ (v : ℚ) ∧ (v : ℚ) < b.max) ∧
    ((bucketAuto 20 vals).map Bucket.count).sum = vals.length := by
  have hba : bucketAuto 20 vals =
      if List.insertionSort (fun a b => a ≤ b) vals = [] then []
      else
        buildBuckets
          (granRoundDown ((List.insertionSort (fun a b => a ≤ b) vals).headD 0))
          (bucketChunks ((vals.length + 20 - 1) / 20)
            (List.insertionSort (fun a b => a ≤ b) vals)) := rfl
  rw [hba]
  by_cases hnil : List.insertionSort (fun a b => a ≤ b) vals = []
  · rw [if_pos hnil]
    have hv : vals = [] := by
      have hp := List.perm_insertionSort (fun a b => a ≤ b) vals
      rw [hnil] at hp
      exact hp.symm.eq_nil
    subst hv
    simp
  · rw [if_neg hnil]
    set sorted := List.insertionSort (fun a b => a ≤ b) vals with hsorted_def
    have hperm : sorted.Perm vals := List.perm_insertionSort _ vals
    have hs : List.Sorted (· ≤ ·) sorted := List.sorted_insertionSort _ vals
    have hhead_mem : sorted.headD 0 ∈ sorted := by
      cases hx : sorted with
      | nil => exact absurd hx hnil
      | cons a l => rw [List.headD_cons]; exact List.mem_cons_self a l
    have hh1 : 1 ≤ sorted.headD 0 := h1 _ (hperm.subset hhead_mem)
    have hhead_le : ∀ x ∈ sorted, sorted.headD 0 ≤ x := by
      cases hx : sorted with
      | nil => exact absurd hx hnil
      | cons a l =>
        intro x hxm
        rw [List.headD_cons]
        have hs' : List.Sorted (· ≤ ·) (a :: l) := hx ▸ hs
        rcases List.mem_cons.mp hxm with rfl | hxl
        · exact le_refl _
        · exact (List.sorted_cons.mp hs').1 x hxl
    have hlo : ∀ x ∈ sorted, granRoundDown (sorted.headD 0) ≤ (x : ℚ) := by
      intro x hx
      have hle : ((sorted.headD 0 : ℕ) : ℚ) ≤ (x : ℚ) := Nat.cast_le.mpr (hhead_le x hx)
      have hlt := (granRoundDown_bounds _ hh1).1
      linarith
    obtain ⟨hok, hflat⟩ :=
      bucketChunks_ok ((vals.length + 20 - 1) / 20) sorted.length sorted le_rfl hs _ hlo
    refine ⟨buildBuckets_chain _ _,
      fun b hb => buildBuckets_min_lt_max _ _ hok b hb,
      buildBuckets_pairwise _ _ hok, ?_, ?_⟩
    · intro v hv
      have hvs : v ∈ sorted := hperm.mem_iff.mpr hv
      exact buildBuckets_coverage _ _ hok v (by rw [hflat]; exact hvs)
    · rw [buildBuckets_counts]
      have hlen := List.length_flatten
        ((bucketChunks ((vals.length + 20 - 1) / 20) sorted).map Prod.fst)
      rw [hflat] at hlen
      rw [← hlen]
      exact hperm.length_eq

/-- Witness for C3 at the concrete value list `[1, 1, 2, 3]`. -/
theorem bucket_auto_boundaries_partition_witness :
    List.Chain' (fun x y => x.max = y.min) (bucketAuto 20 [1, 1, 2, 3]) ∧
    (∀ b ∈ bucketAuto 20 [1, 1, 2, 3], b.min < b.max) ∧
    List.Pairwise (fun x y => x.max ≤ y.min) (bucketAuto 20 [1, 1, 2, 3]) ∧
    (∀ v ∈ ([1, 1, 2, 3] : List ℕ), ∃ b ∈ bucketAuto 20 [1, 1, 2, 3],
      b.min ≤ (v : ℚ) ∧ (v : ℚ) < b.max) ∧
    ((bucketAuto 20 [1, 1, 2, 3]).map Bucket.count).sum =
      ([1, 1, 2, 3] : List ℕ).length :=
  bucket_auto_boundaries_partition [1, 1, 2, 3] (by decide)

/-- Inserting a record into a list leaves the subsequence of records with
any fixed `CarAmount` value intact, except that the inserted record, when
it has that value, goes in front of it (every record the insertion skips
has a strictly larger `CarAmount`). -/
theorem filter_orderedInsert_carAmountDesc (a : String × ℕ) (l : List (String × ℕ)) (k : ℕ) :
    (l.orderedInsert carAmountDesc a).filter (fun x => x.2 = k) =
      if a.2 = k then a :: l.filter (fun x => x.2 = k)
      else l.filter (fun x => x.2 = k) := by
  induction l with
  | nil =>
    simp only [List.orderedInsert, List.filter_cons, List.filter_nil]
    by_cases hak : a.2 = k <;> simp [hak]
  | cons b l ih =>
    simp only [List.orderedInsert]
    by_cases hab : carAmountDesc a b
    · simp only [if_pos hab, List.filter_cons]
      by_cases hak : a.2 = k <;> by_cases hbk : b.2 = k <;> simp [hak, hbk]
    · have hlt : a.2 < b.2 := by
        unfold carAmountDesc at hab; omega
      simp only [if_neg hab, List.filter_cons, ih]
      by_cases hak : a.2 = k
      · have hbk : ¬ b.2 = k := by omega
        simp [hak, hbk]
      · simp [hak]

/-- Stability of the insertion sort used for the `$sort` stage: sorting
preserves, in order, the subsequence of records carrying any fixed value of
the sort key. -/
theorem filter_sortStage_carAmountDesc (R : List (String × ℕ)) (k : ℕ) :
    (sortStage carAmountDesc R).filter (fun x => x.2 = k) =
      R.filter (fun x => x.2 = k) := by
  unfold sortStage
  induction R with
  | nil => rfl
  | cons a R ih =>
    rw [List.insertionSort, filter_orderedInsert_carAmountDesc, List.filter_cons]
    by_cases hak : a.2 = k <;> simp [hak, ih]

/-- C7: the `Sort` stage is stable: the output is a permutation of the
input ordered descending by the declared sort key `CarAmount`, and for any
key value the records carrying it appear in the output exactly in their
upstream relative order (so key-equal records are never swapped). -/
theorem sort_stage_stable (R : List (String × ℕ)) (k : ℕ) :
    List.Sorted carAmountDesc (sortStage carAmountDesc R) ∧
    (sortStage carAmountDesc R).Perm R ∧
    (sortStage carAmountDesc R).filter (fun x => x.2 = k) =
      R.filter (fun x => x.2 = k) :=
  ⟨List.sorted_insertionSort carAmountDesc R, List.perm_insertionSort carAmountDesc R,
    filter_sortStage_carAmountDesc R k⟩

/-- Witness for C10 at concrete streams `id`, `N = 3`, `n = 2`. -/
theorem insert_record_shape_witness :
    ∃ v : ℕ, v ≤ 9999 ∧
      (insertRun id id 3).records[2 - 1]? =
        some [("date ", BsonValue.date (id (2 - 1))),
              ("count", BsonValue.int 2),
              ("value", BsonValue.int v)] :=
  insert_record_shape id id 3 2 (by decide) (by decide)

end MongoUtils
